import Mathlib

/-!
Verification of the CrabToken library (src/lib.rs): creation, verification
and unauthenticated decoding of HMAC-SHA256-signed tokens.

Modelling conventions, all taken from the source:
* Rust `u8` bytes are `Nat` values below 256; `Vec<u8>` is `List Nat`.
* Rust `&str` is `List Char`; `str::as_bytes` is UTF-8 encoding.
* `Utc::now().timestamp()` is an explicit `now : Int` argument.
* The serde payload type parameter `T` and its `rmp_serde` codec are a
  `Codec` record (the codec crates are external to the repository); the
  `Expirable` trait method `exp` is an explicit function argument.
* `Box<dyn Error>` results are `Except Err` with one constructor per error
  kind distinguished by the code.
All definitions are executable and use structural recursion so that concrete
runs reduce inside the kernel.
-/

set_option maxRecDepth 8000

/-- Truncate to a 32-bit word. -/
def w32 (n : Nat) : Nat := n % 4294967296

/-- Rotate a 32-bit word right by `n` bits. -/
def rotr (n x : Nat) : Nat := x / 2 ^ n + x % 2 ^ n * 2 ^ (32 - n)

/-- SHA-256 Σ0. -/
def bigS0 (x : Nat) : Nat := rotr 2 x ^^^ rotr 13 x ^^^ rotr 22 x

/-- SHA-256 Σ1. -/
def bigS1 (x : Nat) : Nat := rotr 6 x ^^^ rotr 11 x ^^^ rotr 25 x

/-- SHA-256 σ0. -/
def smallS0 (x : Nat) : Nat := rotr 7 x ^^^ rotr 18 x ^^^ x / 2 ^ 3

/-- SHA-256 σ1. -/
def smallS1 (x : Nat) : Nat := rotr 17 x ^^^ rotr 19 x ^^^ x / 2 ^ 10

/-- SHA-256 choice function; the subtraction is bitwise complement on
32-bit words. -/
def chF (x y z : Nat) : Nat := (x &&& y) ^^^ ((4294967295 - x) &&& z)

/-- SHA-256 majority function. -/
def majF (x y z : Nat) : Nat := (x &&& y) ^^^ (x &&& z) ^^^ (y &&& z)

/-- The eight 32-bit words of a SHA-256 state. -/
structure H8 where
  a : Nat
  b : Nat
  c : Nat
  d : Nat
  e : Nat
  f : Nat
  g : Nat
  h : Nat
deriving DecidableEq

/-- The SHA-256 round constants. -/
def K256 : List Nat :=
  [1116352408, 1899447441, 3049323471, 3921009573, 961987163, 1508970993,
   2453635748, 2870763221, 3624381080, 310598401, 607225278, 1426881987,
   1925078388, 2162078206, 2614888103, 3248222580, 3835390401, 4022224774,
   264347078, 604807628, 770255983, 1249150122, 1555081692, 1996064986,
   2554220882, 2821834349, 2952996808, 3210313671, 3336571891, 3584528711,
   113926993, 338241895, 666307205, 773529912, 1294757372, 1396182291,
   1695183700, 1986661051, 2177026350, 2456956037, 2730485921, 2820302411,
   3259730800, 3345764771, 3516065817, 3600352804, 4094571909, 275423344,
   430227734, 506948616, 659060556, 883997877, 958139571, 1322822218,
   1537002063, 1747873779, 1955562222, 2024104815, 2227730452, 2361852424,
   2428436474, 2756734187, 3204031479, 3329325298]

/-- The SHA-256 initial state. -/
def initH : H8 :=
  ⟨1779033703, 3144134277, 1013904242, 2773480762,
   1359893119, 2600822924, 528734635, 1541459225⟩

/-- One round of the SHA-256 compression function; `kw` is the round constant
plus the schedule word, already reduced mod 2^32. -/
def shaRound (st : H8) (kw : Nat) : H8 :=
  let t1 := w32 (st.h + bigS1 st.e + chF st.e st.f st.g + kw)
  let t2 := w32 (bigS0 st.a + majF st.a st.b st.c)
  ⟨w32 (t1 + t2), st.a, st.b, st.c, w32 (st.d + t1), st.e, st.f, st.g⟩

/-- Extend the message schedule; `acc` holds the words produced so far,
newest first. -/
def schedExtend : Nat → List Nat → List Nat
  | 0, acc => acc
  | Nat.succ n, acc =>
      schedExtend n
        (w32 (smallS1 (acc.getD 1 0) + acc.getD 6 0 +
              smallS0 (acc.getD 14 0) + acc.getD 15 0) :: acc)

/-- The 64-word message schedule from the 16 words of one block. -/
def msgSchedule (ws : List Nat) : List Nat := (schedExtend 48 ws.reverse).reverse

/-- Compress one 16-word block into the state. -/
def compressBlock (st : H8) (ws : List Nat) : H8 :=
  let f := (K256.zip (msgSchedule ws)).foldl
    (fun s p => shaRound s (w32 (p.1 + p.2))) st
  ⟨w32 (st.a + f.a), w32 (st.b + f.b), w32 (st.c + f.c), w32 (st.d + f.d),
   w32 (st.e + f.e), w32 (st.f + f.f), w32 (st.g + f.g), w32 (st.h + f.h)⟩

/-- Big-endian 8-byte encoding of a length in bits. -/
def lenBytes64 (n : Nat) : List Nat :=
  [n / 2 ^ 56 % 256, n / 2 ^ 48 % 256, n / 2 ^ 40 % 256, n / 2 ^ 32 % 256,
   n / 2 ^ 24 % 256, n / 2 ^ 16 % 256, n / 2 ^ 8 % 256, n % 256]

/-- SHA-256 padding: byte 0x80, zeros to 56 mod 64, then the bit length. -/
def padMsg (m : List Nat) : List Nat :=
  m ++ 128 ::
    (List.replicate ((119 - m.length % 64) % 64) 0 ++ lenBytes64 (8 * m.length))

/-- Big-endian 32-bit words from bytes (length a multiple of 4). -/
def bytesToWords : List Nat → List Nat
  | b1 :: b2 :: b3 :: b4 :: r =>
      (b1 * 16777216 + b2 * 65536 + b3 * 256 + b4) :: bytesToWords r
  | _ => []

/-- Chunk a word list into 16-word blocks; the first argument is fuel. -/
def blocks16 : Nat → List Nat → List (List Nat)
  | 0, _ => []
  | _, [] => []
  | Nat.succ f, ws => ws.take 16 :: blocks16 f (ws.drop 16)

/-- Big-endian bytes of one 32-bit word. -/
def wordBytes (w : Nat) : List Nat :=
  [w / 16777216 % 256, w / 65536 % 256, w / 256 % 256, w % 256]

/-- The 32 digest bytes of a final state. -/
def hashToBytes (st : H8) : List Nat :=
  wordBytes st.a ++ wordBytes st.b ++ wordBytes st.c ++ wordBytes st.d ++
  wordBytes st.e ++ wordBytes st.f ++ wordBytes st.g ++ wordBytes st.h

/-- SHA-256 of a byte list (the `sha2::Sha256` dependency of the crate). -/
def sha256 (m : List Nat) : List Nat :=
  hashToBytes
    ((blocks16 (padMsg m).length (bytesToWords (padMsg m))).foldl
      compressBlock initH)

/-- The HMAC key, brought to the 64-byte block size: keys longer than one
block are hashed first, then the result is zero-padded. -/
def hmacKeyBlock (key : List Nat) : List Nat :=
  let k0 := if 64 < key.length then sha256 key else key
  k0 ++ List.replicate (64 - k0.length) 0

/-- HMAC-SHA256 over byte lists (the `hmac::Hmac<Sha256>` dependency). -/
def hmacSha256 (key msg : List Nat) : List Nat :=
  let k := hmacKeyBlock key
  sha256 ((k.map fun b => b ^^^ 92) ++
    sha256 ((k.map fun b => b ^^^ 54) ++ msg))

/-- UTF-8 bytes of one character, as produced by `str::as_bytes`. -/
def utf8Char (c : Char) : List Nat :=
  let n := c.toNat
  if n < 128 then [n]
  else if n < 2048 then [192 + n / 64, 128 + n % 64]
  else if n < 65536 then [224 + n / 4096, 128 + n / 64 % 64, 128 + n % 64]
  else [240 + n / 262144, 128 + n / 4096 % 64, 128 + n / 64 % 64, 128 + n % 64]

/-- UTF-8 bytes of a Rust string, modelled as a character list. -/
def utf8Bytes (s : List Char) : List Nat := (s.map utf8Char).flatten

/-- Index of a character in the URL-safe base64 alphabet, none when the
character is not in the alphabet. -/
def b64Index (c : Char) : Option Nat :=
  let n := c.toNat
  if 65 ≤ n ∧ n ≤ 90 then some (n - 65)
  else if 97 ≤ n ∧ n ≤ 122 then some (n - 97 + 26)
  else if 48 ≤ n ∧ n ≤ 57 then some (n - 48 + 52)
  else if n = 45 then some 62
  else if n = 95 then some 63
  else none

/-- The URL-safe base64 alphabet character for a 6-bit index. -/
def b64CharOf (i : Nat) : Char :=
  if i < 26 then Char.ofNat (65 + i)
  else if i < 52 then Char.ofNat (97 + (i - 26))
  else if i < 62 then Char.ofNat (48 + (i - 52))
  else if i = 62 then Char.ofNat 45
  else Char.ofNat 95

/-- URL-safe unpadded base64 encoding (`URL_SAFE_NO_PAD.encode`),
three input bytes per four output characters. -/
def b64EncodeF : List Nat → List Char
  | [] => []
  | [b1] => [b64CharOf (b1 / 4), b64CharOf (b1 % 4 * 16)]
  | [b1, b2] =>
      [b64CharOf (b1 / 4), b64CharOf (b1 % 4 * 16 + b2 / 16),
       b64CharOf (b2 % 16 * 4)]
  | b1 :: b2 :: b3 :: rest =>
      b64CharOf (b1 / 4) :: b64CharOf (b1 % 4 * 16 + b2 / 16) ::
      b64CharOf (b2 % 16 * 4 + b3 / 64) :: b64CharOf (b3 % 64) ::
      b64EncodeF rest

/-- URL-safe unpadded base64 decoding (`URL_SAFE_NO_PAD.decode`): rejects
characters outside the alphabet, length 1 mod 4, padding and nonzero
trailing bits, exactly as the strict engine configuration does. -/
def b64DecodeF : List Char → Option (List Nat)
  | [] => some []
  | [_] => none
  | [c1, c2] =>
      (b64Index c1).bind fun i1 =>
      (b64Index c2).bind fun i2 =>
      if i2 % 16 = 0 then some [i1 * 4 + i2 / 16] else none
  | [c1, c2, c3] =>
      (b64Index c1).bind fun i1 =>
      (b64Index c2).bind fun i2 =>
      (b64Index c3).bind fun i3 =>
      if i3 % 4 = 0 then some [i1 * 4 + i2 / 16, i2 % 16 * 16 + i3 / 4]
      else none
  | c1 :: c2 :: c3 :: c4 :: rest =>
      (b64Index c1).bind fun i1 =>
      (b64Index c2).bind fun i2 =>
      (b64Index c3).bind fun i3 =>
      (b64Index c4).bind fun i4 =>
      (b64DecodeF rest).map fun r =>
        (i1 * 4 + i2 / 16) :: (i2 % 16 * 16 + i3 / 4) :: (i3 % 4 * 64 + i4) :: r

/-- `token.split('.').collect::<Vec<_>>()`: the pieces of a string between
occurrences of the dot, empty pieces included. -/
def splitOnDot : List Char → List (List Char)
  | [] => [[]]
  | c :: rest =>
      if c = '.' then [] :: splitOnDot rest
      else
        match splitOnDot rest with
        | [] => [[c]]
        | s :: ss => (c :: s) :: ss

/-- The error kinds the library can surface, one per distinguishable failure
of src/lib.rs: the three `TokenError` strings, and the propagated errors of
the base64, rmp-serde and hmac dependencies. -/
inductive Err
  | FormatError
  | EncodingError
  | SignatureError
  | DeserializationError
  | ExpiredError
  | SerializationError
  | KeyError
deriving DecidableEq

deriving instance DecidableEq for Except

/-- The serde/rmp-serde codec of the payload type parameter `T`:
`rmp_serde::to_vec` and `rmp_serde::from_slice`. The codec crates live
outside this repository, so the codec is a parameter; `toVec_bytes` records
that `to_vec` returns `Vec<u8>`, whose elements are below 256. -/
structure Codec (T : Type) where
  toVec : T → Option (List Nat)
  fromSlice : List Nat → Option T
  toVec_bytes : ∀ p bs, toVec p = some bs → ∀ b ∈ bs, b < 256

/-- `HmacSha256::new_from_slice`: the hmac crate accepts keys of every
length for an SHA-256 MAC (long keys are hashed, short keys padded), so the
`InvalidLength` branch never fires and the key is returned unchanged. -/
def hmacNewFromSlice (key : List Nat) : Except Err (List Nat) := .ok key

/-- `sign_payload` of src/lib.rs: build the MAC from the secret bytes,
feed it the payload bytes once, finalize. -/
def sign_payload (secret : List Char) (payload : List Nat) :
    Except Err (List Nat) :=
  match hmacNewFromSlice (utf8Bytes secret) with
  | .error e => .error e
  | .ok mac => .ok (hmacSha256 mac payload)

/-- `create_token` of src/lib.rs: serialize the payload, sign the raw
bytes, join the base64url encodings of payload and signature with a dot. -/
def create_token {T : Type} (c : Codec T) (payload : T) (secret : List Char) :
    Except Err (List Char) :=
  match c.toVec payload with
  | none => .error .SerializationError
  | some payload_bytes =>
    match sign_payload secret payload_bytes with
    | .error e => .error e
    | .ok signature =>
        .ok (b64EncodeF payload_bytes ++ '.' :: b64EncodeF signature)

/-- `verify_token` of src/lib.rs: split on the dot, require exactly two
parts, base64url-decode both, recompute the signature over the decoded
payload bytes, compare, deserialize, and reject strictly-past expirations
against `now : Int` (the value of `Utc::now().timestamp()`). -/
def verify_token {T : Type} (c : Codec T) (expf : T → Int)
    (secret token : List Char) (now : Int) : Except Err T :=
  match splitOnDot token with
  | [p0, p1] =>
    match b64DecodeF p0 with
    | none => .error .EncodingError
    | some payload_bytes =>
      match b64DecodeF p1 with
      | none => .error .EncodingError
      | some signature =>
        match sign_payload secret payload_bytes with
        | .error e => .error e
        | .ok expected_signature =>
          if signature = expected_signature then
            match c.fromSlice payload_bytes with
            | none => .error .DeserializationError
            | some payload =>
              if expf payload < now then .error .ExpiredError
              else .ok payload
          else .error .SignatureError
  | _ => .error .FormatError

/-- `decode_token` of src/lib.rs: split on the dot, require exactly two
parts, base64url-decode the first part only, deserialize. -/
def decode_token {T : Type} (c : Codec T) (token : List Char) : Except Err T :=
  match splitOnDot token with
  | [p0, _] =>
    match b64DecodeF p0 with
    | none => .error .EncodingError
    | some payload_bytes =>
      match c.fromSlice payload_bytes with
      | none => .error .DeserializationError
      | some payload => .ok payload
  | _ => .error .FormatError

/-- The token `create_token` builds from serialized payload bytes `bs` and
secret `S`. -/
def mkToken (S : List Char) (bs : List Nat) : List Char :=
  b64EncodeF bs ++ '.' :: b64EncodeF (hmacSha256 (utf8Bytes S) bs)

/-- The verification stages of the spec state machine, in source order. -/
inductive Stage
  | split
  | decode
  | macCheck
  | deserialize
  | expCheck
deriving DecidableEq

/-- `verify_token` instrumented with the list of stages whose computation
actually starts, in the order the source runs them. Byte-for-byte the same
control flow as `verify_token`; only the stage list is added. -/
def verifyTrace {T : Type} (c : Codec T) (expf : T → Int)
    (secret token : List Char) (now : Int) : List Stage × Except Err T :=
  match splitOnDot token with
  | [p0, p1] =>
    match b64DecodeF p0 with
    | none => ([.split, .decode], .error .EncodingError)
    | some payload_bytes =>
      match b64DecodeF p1 with
      | none => ([.split, .decode], .error .EncodingError)
      | some signature =>
        match sign_payload secret payload_bytes with
        | .error e => ([.split, .decode, .macCheck], .error e)
        | .ok expected_signature =>
          if signature = expected_signature then
            match c.fromSlice payload_bytes with
            | none =>
                ([.split, .decode, .macCheck, .deserialize],
                 .error .DeserializationError)
            | some payload =>
              if expf payload < now then
                ([.split, .decode, .macCheck, .deserialize, .expCheck],
                 .error .ExpiredError)
              else
                ([.split, .decode, .macCheck, .deserialize, .expCheck],
                 .ok payload)
          else ([.split, .decode, .macCheck], .error .SignatureError)
  | _ => ([.split], .error .FormatError)

/-- The MAC gate of `verify_token` on a raw token: the token splits in two,
both parts decode, and the supplied signature equals the one recomputed
from the secret over the decoded payload bytes. -/
def macPassed (secret token : List Char) : Bool :=
  match splitOnDot token with
  | [p0, p1] =>
    match b64DecodeF p0, b64DecodeF p1 with
    | some payload_bytes, some signature =>
      match sign_payload secret payload_bytes with
      | .ok expected_signature => signature = expected_signature
      | .error _ => false
    | _, _ => false
  | _ => false

/-- Flip bit `k` of a character code (the token is ASCII, so characters
coincide with the bytes of the Rust string). -/
def flipBit (c : Char) (k : Nat) : Char := Char.ofNat (c.toNat ^^^ 2 ^ k)

/-- Flip bit `k` of the character at position `i`. -/
def flipAt : List Char → Nat → Nat → List Char
  | [], _, _ => []
  | c :: rest, 0, k => flipBit c k :: rest
  | c :: rest, Nat.succ i, k => c :: flipAt rest i k

/-- No HMAC collision after tampering: if the first segment of `t` still
base64-decodes, its bytes are the original ones or their MAC under `S`
differs from the MAC of the original bytes `bs`. A flip in the signature
segment satisfies this trivially; for a flip in the payload segment it is
the collision-freedom assumption on HMAC-SHA256. -/
def noCollB (S : List Char) (bs : List Nat) (t : List Char) : Bool :=
  match splitOnDot t with
  | [p0, _] =>
    match b64DecodeF p0 with
    | some bs2 =>
        bs2 = bs ∨ hmacSha256 (utf8Bytes S) bs2 ≠ hmacSha256 (utf8Bytes S) bs
    | none => true
  | _ => true

/-- The payload shape of the spec worked example: a user id and an
expiration timestamp. -/
structure DemoClaims where
  user_id : Nat
  exp : Int
deriving DecidableEq

/-- A two-byte codec for `DemoClaims`, standing in for rmp-serde in the
concrete witnesses: byte 0 is the user id, byte 1 the expiration. -/
def demoCodec : Codec DemoClaims where
  toVec p :=
    if p.user_id < 256 ∧ 0 ≤ p.exp ∧ p.exp < 256 then
      some [p.user_id, p.exp.toNat]
    else none
  fromSlice
    | [u, e] => if u < 256 ∧ e < 256 then some ⟨u, (e : Int)⟩ else none
    | _ => none
  toVec_bytes := by
    intro p bs h b hb
    simp only at h
    split at h
    · next hc =>
      cases h
      simp only [List.mem_cons, List.mem_singleton, List.not_mem_nil,
        or_false] at hb
      rcases hb with h1 | h2
      · omega
      · subst h2
        omega
    · cases h

/-! ### Helper lemmas: characters, bit flips, splitting -/

theorem char_toNat_ofNat {n : Nat} (h : n < 55296) : (Char.ofNat n).toNat = n := by
  have hv : n.isValidChar := Or.inl h
  unfold Char.ofNat
  rw [dif_pos hv]
  rfl

theorem xor_pow_ne (x k : Nat) : x ^^^ 2 ^ k ≠ x := by
  intro h
  have h2 : (x ^^^ 2 ^ k) ^^^ x = x ^^^ x := by rw [h]
  rw [Nat.xor_comm x (2 ^ k), Nat.xor_cancel_right, Nat.xor_self] at h2
  exact absurd h2 (Nat.two_pow_pos k).ne'

theorem xor_pow_lt {x k : Nat} (h : x < 256) (hk : k < 8) : x ^^^ 2 ^ k < 256 := by
  have h1 : x < 2 ^ 8 := by omega
  have h2 : 2 ^ k < 2 ^ 8 := Nat.pow_lt_pow_right (by norm_num) hk
  calc x ^^^ 2 ^ k < 2 ^ 8 := Nat.xor_lt_two_pow h1 h2
    _ ≤ 256 := by norm_num

/-- Flipping a bit of an ASCII character changes the character. -/
theorem flipBit_ne {c : Char} {k : Nat} (hc : c.toNat < 256) (hk : k < 8) :
    flipBit c k ≠ c := by
  intro h
  have ht : (flipBit c k).toNat = c.toNat := by rw [h]
  rw [flipBit, char_toNat_ofNat (by have := xor_pow_lt hc hk; omega)] at ht
  exact absurd ht (xor_pow_ne c.toNat k)

theorem splitOnDot_ne_nil (s : List Char) : splitOnDot s ≠ [] := by
  cases s with
  | nil => simp [splitOnDot]
  | cons c rest =>
    simp only [splitOnDot]
    split
    · simp
    · split <;> simp

theorem splitOnDot_of_not_mem {s : List Char} (h : '.' ∉ s) :
    splitOnDot s = [s] := by
  induction s with
  | nil => rfl
  | cons c rest ih =>
    simp only [List.mem_cons, not_or] at h
    obtain ⟨h1, h2⟩ := h
    simp only [splitOnDot]
    rw [if_neg (fun hc => h1 hc.symm), ih h2]

theorem splitOnDot_append {s1 : List Char} (s2 : List Char) (h : '.' ∉ s1) :
    splitOnDot (s1 ++ '.' :: s2) = s1 :: splitOnDot s2 := by
  induction s1 with
  | nil => simp [splitOnDot]
  | cons c rest ih =>
    simp only [List.mem_cons, not_or] at h
    obtain ⟨h1, h2⟩ := h
    simp only [List.cons_append, splitOnDot]
    rw [if_neg (fun hc => h1 hc.symm)]
    simp only [List.append_eq]
    rw [ih h2]

theorem splitOnDot_length (s : List Char) :
    (splitOnDot s).length = s.count '.' + 1 := by
  induction s with
  | nil => simp [splitOnDot]
  | cons c rest ih =>
    simp only [splitOnDot]
    by_cases hc : c = '.'
    · subst hc
      rw [if_pos rfl]
      simp [List.count_cons, ih]
    · rw [if_neg hc]
      cases h : splitOnDot rest with
      | nil => exact absurd h (splitOnDot_ne_nil rest)
      | cons a as =>
        rw [h] at ih
        simp only [List.length_cons] at ih ⊢
        have hbe : ('.' == c) = false := by
          rw [beq_eq_false_iff_ne]
          exact fun hd => hc hd.symm
        simp [List.count_cons, hbe, ih, hc]

/-- Both entry points reject a token that does not split into exactly two
segments, with the format error and nothing else. -/
theorem formatError_of_split {T : Type} (c : Codec T) (expf : T → Int)
    (secret t : List Char) (now : Int) (h : (splitOnDot t).length ≠ 2) :
    verify_token c expf secret t now = .error .FormatError ∧
    decode_token c t = .error .FormatError := by
  unfold verify_token decode_token
  cases hs : splitOnDot t with
  | nil => simp [hs]
  | cons a as =>
    cases as with
    | nil => simp [hs]
    | cons b bs =>
      cases bs with
      | nil =>
        rw [hs] at h
        simp at h
      | cons d ds => simp [hs]

/-! ### Helper lemmas: the base64url alphabet -/

theorem b64Index_b64CharOf : ∀ i, i < 64 → b64Index (b64CharOf i) = some i := by
  decide

theorem b64CharOf_toNat_lt : ∀ i, i < 64 → (b64CharOf i).toNat < 128 := by
  decide

theorem b64CharOf_ne_dot : ∀ i, i < 64 → b64CharOf i ≠ '.' := by
  decide

theorem b64CharOf_b64Index {c : Char} {i : Nat} (h : b64Index c = some i) :
    i < 64 ∧ b64CharOf i = c := by
  have hofn : Char.ofNat c.toNat = c := Char.ofNat_toNat c
  simp only [b64Index] at h
  split at h
  · next hc =>
    have hi := Option.some.inj h
    subst hi
    refine ⟨by omega, ?_⟩
    unfold b64CharOf
    rw [if_pos (by omega), show 65 + (c.toNat - 65) = c.toNat by omega]
    exact hofn
  · split at h
    · next hc =>
      have hi := Option.some.inj h
      subst hi
      refine ⟨by omega, ?_⟩
      unfold b64CharOf
      rw [if_neg (by omega), if_pos (by omega),
        show 97 + (c.toNat - 97 + 26 - 26) = c.toNat by omega]
      exact hofn
    · split at h
      · next hc =>
        have hi := Option.some.inj h
        subst hi
        refine ⟨by omega, ?_⟩
        unfold b64CharOf
        rw [if_neg (by omega), if_neg (by omega), if_pos (by omega),
          show 48 + (c.toNat - 48 + 52 - 52) = c.toNat by omega]
        exact hofn
      · split at h
        · next hc =>
          have hi := Option.some.inj h
          subst hi
          refine ⟨by omega, ?_⟩
          unfold b64CharOf
          rw [if_neg (by omega), if_neg (by omega), if_neg (by omega),
            if_pos rfl, show (45 : Nat) = c.toNat by omega]
          exact hofn
        · split at h
          · next hc =>
            have hi := Option.some.inj h
            subst hi
            refine ⟨by omega, ?_⟩
            unfold b64CharOf
            rw [if_neg (by omega), if_neg (by omega), if_neg (by omega),
              if_neg (by omega), show (95 : Nat) = c.toNat by omega]
            exact hofn
          · exact absurd h (by simp)

theorem mem_b64EncodeF : ∀ (bs : List Nat), (∀ b ∈ bs, b < 256) →
    ∀ c ∈ b64EncodeF bs, ∃ i, i < 64 ∧ c = b64CharOf i
  | [], _, c, hc => by simp [b64EncodeF] at hc
  | [b1], h, c, hc => by
    have hb1 : b1 < 256 := h b1 (by simp)
    simp only [b64EncodeF, List.mem_cons, List.not_mem_nil, or_false] at hc
    rcases hc with rfl | rfl
    · exact ⟨b1 / 4, by omega, rfl⟩
    · exact ⟨b1 % 4 * 16, by omega, rfl⟩
  | [b1, b2], h, c, hc => by
    have hb1 : b1 < 256 := h b1 (by simp)
    have hb2 : b2 < 256 := h b2 (by simp)
    simp only [b64EncodeF, List.mem_cons, List.not_mem_nil, or_false] at hc
    rcases hc with rfl | rfl | rfl
    · exact ⟨b1 / 4, by omega, rfl⟩
    · exact ⟨b1 % 4 * 16 + b2 / 16, by omega, rfl⟩
    · exact ⟨b2 % 16 * 4, by omega, rfl⟩
  | b1 :: b2 :: b3 :: rest, h, c, hc => by
    have hb1 : b1 < 256 := h b1 (by simp)
    have hb2 : b2 < 256 := h b2 (by simp)
    have hb3 : b3 < 256 := h b3 (by simp)
    have hrest : ∀ b ∈ rest, b < 256 := fun b hb => h b (by simp [hb])
    rcases List.mem_cons.mp hc with rfl | hc
    · exact ⟨b1 / 4, by omega, rfl⟩
    rcases List.mem_cons.mp hc with rfl | hc
    · exact ⟨b1 % 4 * 16 + b2 / 16, by omega, rfl⟩
    rcases List.mem_cons.mp hc with rfl | hc
    · exact ⟨b2 % 16 * 4 + b3 / 64, by omega, rfl⟩
    rcases List.mem_cons.mp hc with rfl | hc
    · exact ⟨b3 % 64, by omega, rfl⟩
    · exact mem_b64EncodeF rest hrest c hc

theorem dot_not_mem_b64EncodeF {bs : List Nat} (h : ∀ b ∈ bs, b < 256) :
    '.' ∉ b64EncodeF bs := by
  intro hmem
  obtain ⟨i, hi, hc⟩ := mem_b64EncodeF bs h '.' hmem
  exact b64CharOf_ne_dot i hi hc.symm

theorem toNat_lt_of_mem_b64EncodeF {bs : List Nat} (h : ∀ b ∈ bs, b < 256)
    {c : Char} (hc : c ∈ b64EncodeF bs) : c.toNat < 256 := by
  obtain ⟨i, hi, rfl⟩ := mem_b64EncodeF bs h c hc
  have := b64CharOf_toNat_lt i hi
  omega

/-! ### Helper lemmas: base64url decoding inverts encoding -/

theorem b64DecodeF_b64EncodeF :
    ∀ (bs : List Nat), (∀ b ∈ bs, b < 256) →
      b64DecodeF (b64EncodeF bs) = some bs
  | [], _ => rfl
  | [b1], h => by
    have hb1 : b1 < 256 := h b1 (by simp)
    simp only [b64EncodeF, b64DecodeF]
    rw [b64Index_b64CharOf _ (by omega), b64Index_b64CharOf _ (by omega)]
    simp only [Option.some_bind]
    rw [if_pos (by omega)]
    have he : b1 / 4 * 4 + b1 % 4 * 16 / 16 = b1 := by omega
    rw [he]
  | [b1, b2], h => by
    have hb1 : b1 < 256 := h b1 (by simp)
    have hb2 : b2 < 256 := h b2 (by simp)
    simp only [b64EncodeF, b64DecodeF]
    rw [b64Index_b64CharOf _ (by omega), b64Index_b64CharOf _ (by omega),
      b64Index_b64CharOf _ (by omega)]
    simp only [Option.some_bind]
    rw [if_pos (by omega)]
    have he1 : b1 / 4 * 4 + (b1 % 4 * 16 + b2 / 16) / 16 = b1 := by omega
    have he2 : (b1 % 4 * 16 + b2 / 16) % 16 * 16 + b2 % 16 * 4 / 4 = b2 := by
      omega
    rw [he1, he2]
  | b1 :: b2 :: b3 :: rest, h => by
    have hb1 : b1 < 256 := h b1 (by simp)
    have hb2 : b2 < 256 := h b2 (by simp)
    have hb3 : b3 < 256 := h b3 (by simp)
    have hrest : ∀ b ∈ rest, b < 256 := fun b hb => h b (by simp [hb])
    have ih := b64DecodeF_b64EncodeF rest hrest
    cases hr : b64EncodeF rest with
    | nil =>
      simp only [b64EncodeF, hr, b64DecodeF]
      rw [b64Index_b64CharOf _ (by omega), b64Index_b64CharOf _ (by omega),
        b64Index_b64CharOf _ (by omega), b64Index_b64CharOf _ (by omega)]
      simp only [Option.some_bind]
      rw [hr] at ih
      simp only [b64DecodeF] at ih
      rw [ih]
      simp only [Option.map_some']
      have he1 : b1 / 4 * 4 + (b1 % 4 * 16 + b2 / 16) / 16 = b1 := by omega
      have he2 : (b1 % 4 * 16 + b2 / 16) % 16 * 16 +
          (b2 % 16 * 4 + b3 / 64) / 4 = b2 := by omega
      have he3 : (b2 % 16 * 4 + b3 / 64) % 4 * 64 + b3 % 64 = b3 := by omega
      rw [he1, he2, he3]
    | cons c0 cr =>
      simp only [b64EncodeF, hr, b64DecodeF]
      rw [b64Index_b64CharOf _ (by omega), b64Index_b64CharOf _ (by omega),
        b64Index_b64CharOf _ (by omega), b64Index_b64CharOf _ (by omega)]
      simp only [Option.some_bind]
      rw [hr] at ih
      rw [ih]
      simp only [Option.map_some']
      have he1 : b1 / 4 * 4 + (b1 % 4 * 16 + b2 / 16) / 16 = b1 := by omega
      have he2 : (b1 % 4 * 16 + b2 / 16) % 16 * 16 +
          (b2 % 16 * 4 + b3 / 64) / 4 = b2 := by omega
      have he3 : (b2 % 16 * 4 + b3 / 64) % 4 * 64 + b3 % 64 = b3 := by omega
      rw [he1, he2, he3]

theorem b64EncodeF_b64DecodeF :
    ∀ (s : List Char) (bs : List Nat), b64DecodeF s = some bs →
      b64EncodeF bs = s
  | [], bs, h => by
    simp only [b64DecodeF] at h
    cases Option.some.inj h
    rfl
  | [c1], bs, h => by simp [b64DecodeF] at h
  | [c1, c2], bs, h => by
    simp only [b64DecodeF] at h
    cases h1 : b64Index c1 with
    | none => rw [h1] at h; simp at h
    | some i1 =>
      cases h2 : b64Index c2 with
      | none => rw [h1, h2] at h; simp at h
      | some i2 =>
        rw [h1, h2] at h
        simp only [Option.some_bind] at h
        split at h
        · next htr =>
          cases Option.some.inj h
          obtain ⟨hi1, hc1⟩ := b64CharOf_b64Index h1
          obtain ⟨hi2, hc2⟩ := b64CharOf_b64Index h2
          simp only [b64EncodeF]
          rw [show (i1 * 4 + i2 / 16) / 4 = i1 by omega,
            show (i1 * 4 + i2 / 16) % 4 * 16 = i2 by omega, hc1, hc2]
        · exact absurd h (by simp)
  | [c1, c2, c3], bs, h => by
    simp only [b64DecodeF] at h
    cases h1 : b64Index c1 with
    | none => rw [h1] at h; simp at h
    | some i1 =>
      cases h2 : b64Index c2 with
      | none => rw [h1, h2] at h; simp at h
      | some i2 =>
        cases h3 : b64Index c3 with
        | none => rw [h1, h2, h3] at h; simp at h
        | some i3 =>
          rw [h1, h2, h3] at h
          simp only [Option.some_bind] at h
          split at h
          · next htr =>
            cases Option.some.inj h
            obtain ⟨hi1, hc1⟩ := b64CharOf_b64Index h1
            obtain ⟨hi2, hc2⟩ := b64CharOf_b64Index h2
            obtain ⟨hi3, hc3⟩ := b64CharOf_b64Index h3
            simp only [b64EncodeF]
            rw [show (i1 * 4 + i2 / 16) / 4 = i1 by omega,
              show (i1 * 4 + i2 / 16) % 4 * 16 +
                (i2 % 16 * 16 + i3 / 4) / 16 = i2 by omega,
              show (i2 % 16 * 16 + i3 / 4) % 16 * 4 = i3 by omega,
              hc1, hc2, hc3]
          · exact absurd h (by simp)
  | c1 :: c2 :: c3 :: c4 :: rest, bs, h => by
    simp only [b64DecodeF] at h
    cases h1 : b64Index c1 with
    | none => rw [h1] at h; simp at h
    | some i1 =>
      cases h2 : b64Index c2 with
      | none => rw [h1, h2] at h; simp at h
      | some i2 =>
        cases h3 : b64Index c3 with
        | none => rw [h1, h2, h3] at h; simp at h
        | some i3 =>
          cases h4 : b64Index c4 with
          | none => rw [h1, h2, h3, h4] at h; simp at h
          | some i4 =>
            rw [h1, h2, h3, h4] at h
            simp only [Option.some_bind] at h
            cases hr : b64DecodeF rest with
            | none => rw [hr] at h; simp at h
            | some r =>
              rw [hr] at h
              simp only [Option.map_some'] at h
              cases Option.some.inj h
              obtain ⟨hi1, hc1⟩ := b64CharOf_b64Index h1
              obtain ⟨hi2, hc2⟩ := b64CharOf_b64Index h2
              obtain ⟨hi3, hc3⟩ := b64CharOf_b64Index h3
              obtain ⟨hi4, hc4⟩ := b64CharOf_b64Index h4
              have ih := b64EncodeF_b64DecodeF rest r hr
              simp only [b64EncodeF]
              rw [show (i1 * 4 + i2 / 16) / 4 = i1 by omega,
                show (i1 * 4 + i2 / 16) % 4 * 16 +
                  (i2 % 16 * 16 + i3 / 4) / 16 = i2 by omega,
                show (i2 % 16 * 16 + i3 / 4) % 16 * 4 +
                  (i3 % 4 * 64 + i4) / 64 = i3 by omega,
                show (i3 % 4 * 64 + i4) % 64 = i4 by omega,
                hc1, hc2, hc3, hc4, ih]

theorem b64Index_ne_none_of_decode :
    ∀ (s : List Char) (bs : List Nat), b64DecodeF s = some bs →
      ∀ c ∈ s, b64Index c ≠ none
  | [], _, _, c, hc => by simp at hc
  | [c1], bs, h, c, hc => by simp [b64DecodeF] at h
  | [c1, c2], bs, h, c, hc => by
    simp only [b64DecodeF] at h
    cases h1 : b64Index c1 with
    | none => rw [h1] at h; simp at h
    | some i1 =>
      cases h2 : b64Index c2 with
      | none => rw [h1, h2] at h; simp at h
      | some i2 =>
        simp only [List.mem_cons, List.not_mem_nil, or_false] at hc
        rcases hc with rfl | rfl
        · simp [h1]
        · simp [h2]
  | [c1, c2, c3], bs, h, c, hc => by
    simp only [b64DecodeF] at h
    cases h1 : b64Index c1 with
    | none => rw [h1] at h; simp at h
    | some i1 =>
      cases h2 : b64Index c2 with
      | none => rw [h1, h2] at h; simp at h
      | some i2 =>
        cases h3 : b64Index c3 with
        | none => rw [h1, h2, h3] at h; simp at h
        | some i3 =>
          simp only [List.mem_cons, List.not_mem_nil, or_false] at hc
          rcases hc with rfl | rfl | rfl
          · simp [h1]
          · simp [h2]
          · simp [h3]
  | c1 :: c2 :: c3 :: c4 :: rest, bs, h, c, hc => by
    simp only [b64DecodeF] at h
    cases h1 : b64Index c1 with
    | none => rw [h1] at h; simp at h
    | some i1 =>
      cases h2 : b64Index c2 with
      | none => rw [h1, h2] at h; simp at h
      | some i2 =>
        cases h3 : b64Index c3 with
        | none => rw [h1, h2, h3] at h; simp at h
        | some i3 =>
          cases h4 : b64Index c4 with
          | none => rw [h1, h2, h3, h4] at h; simp at h
          | some i4 =>
            rw [h1, h2, h3, h4] at h
            simp only [Option.some_bind] at h
            cases hr : b64DecodeF rest with
            | none => rw [hr] at h; simp at h
            | some r =>
              rcases List.mem_cons.mp hc with rfl | hc'
              · simp [h1]
              rcases List.mem_cons.mp hc' with rfl | hc''
              · simp [h2]
              rcases List.mem_cons.mp hc'' with rfl | hc3
              · simp [h3]
              rcases List.mem_cons.mp hc3 with rfl | hc4
              · simp [h4]
              · exact b64Index_ne_none_of_decode rest r hr c hc4

/-- A string that base64url-decodes contains no dot. -/
theorem dot_not_mem_of_decode {s : List Char} {bs : List Nat}
    (h : b64DecodeF s = some bs) : '.' ∉ s := by
  intro hmem
  exact b64Index_ne_none_of_decode s bs h '.' hmem rfl

/-- Strict base64url decoding is injective on decodable strings. -/
theorem b64DecodeF_inj {s1 s2 : List Char} {bs : List Nat}
    (h1 : b64DecodeF s1 = some bs) (h2 : b64DecodeF s2 = some bs) :
    s1 = s2 := by
  rw [← b64EncodeF_b64DecodeF s1 bs h1, ← b64EncodeF_b64DecodeF s2 bs h2]

/-! ### Helper lemmas: digest shape, token assembly -/

theorem wordBytes_lt (w : Nat) : ∀ b ∈ wordBytes w, b < 256 := by
  intro b hb
  simp only [wordBytes, List.mem_cons, List.not_mem_nil, or_false] at hb
  rcases hb with rfl | rfl | rfl | rfl <;> exact Nat.mod_lt _ (by norm_num)

theorem sha256_mem_lt (m : List Nat) : ∀ b ∈ sha256 m, b < 256 := by
  intro b hb
  simp only [sha256, hashToBytes, List.mem_append] at hb
  rcases hb with ((((((h | h) | h) | h) | h) | h) | h) | h <;>
    exact wordBytes_lt _ b h

theorem sha256_length (m : List Nat) : (sha256 m).length = 32 := by
  simp [sha256, hashToBytes, wordBytes]

theorem hmac_mem_lt (key msg : List Nat) : ∀ b ∈ hmacSha256 key msg, b < 256 := by
  unfold hmacSha256
  exact sha256_mem_lt _

theorem hmac_length (key msg : List Nat) : (hmacSha256 key msg).length = 32 := by
  unfold hmacSha256
  exact sha256_length _

theorem sign_payload_eq (secret : List Char) (payload : List Nat) :
    sign_payload secret payload = .ok (hmacSha256 (utf8Bytes secret) payload) :=
  rfl

/-- `create_token` on a serializable payload produces exactly `mkToken`. -/
theorem create_token_eq {T : Type} (c : Codec T) (P : T) (S : List Char)
    {bs : List Nat} (hs : c.toVec P = some bs) :
    create_token c P S = .ok (mkToken S bs) := by
  unfold create_token mkToken
  simp only [hs, sign_payload_eq]

/-- A built token splits into exactly its two segments. -/
theorem splitOnDot_mkToken (S : List Char) {bs : List Nat}
    (hbytes : ∀ b ∈ bs, b < 256) :
    splitOnDot (mkToken S bs) =
      [b64EncodeF bs, b64EncodeF (hmacSha256 (utf8Bytes S) bs)] := by
  unfold mkToken
  rw [splitOnDot_append _ (dot_not_mem_b64EncodeF hbytes),
    splitOnDot_of_not_mem (dot_not_mem_b64EncodeF (hmac_mem_lt _ _))]

/-- Verification of a built token with the same secret passes the format,
decoding and MAC stages and reduces to deserialization plus the expiration
check. -/
theorem verify_token_mkToken {T : Type} (c : Codec T) (expf : T → Int)
    (S : List Char) {bs : List Nat} (now : Int)
    (hbytes : ∀ b ∈ bs, b < 256) :
    verify_token c expf S (mkToken S bs) now =
      match c.fromSlice bs with
      | none => .error .DeserializationError
      | some p => if expf p < now then .error .ExpiredError else .ok p := by
  unfold verify_token
  have hsig := b64DecodeF_b64EncodeF _ (hmac_mem_lt (utf8Bytes S) bs)
  simp only [splitOnDot_mkToken S hbytes, b64DecodeF_b64EncodeF bs hbytes,
    hsig, sign_payload_eq]
  simp

/-- Verification of a built token under a secret whose MAC over the payload
bytes differs stops with the signature error. -/
theorem verify_token_mkToken_wrong {T : Type} (c : Codec T) (expf : T → Int)
    (S1 S2 : List Char) {bs : List Nat} (now : Int)
    (hbytes : ∀ b ∈ bs, b < 256)
    (hneq : hmacSha256 (utf8Bytes S2) bs ≠ hmacSha256 (utf8Bytes S1) bs) :
    verify_token c expf S2 (mkToken S1 bs) now = .error .SignatureError := by
  unfold verify_token
  have hsig := b64DecodeF_b64EncodeF _ (hmac_mem_lt (utf8Bytes S1) bs)
  simp only [splitOnDot_mkToken S1 hbytes, b64DecodeF_b64EncodeF bs hbytes,
    hsig, sign_payload_eq]
  rw [if_neg (fun he => hneq he.symm)]

/-- Unauthenticated decoding of a built token reduces to deserializing the
payload bytes; the signature segment is never read. -/
theorem decode_token_mkToken {T : Type} (c : Codec T)
    (S : List Char) {bs : List Nat} (hbytes : ∀ b ∈ bs, b < 256) :
    decode_token c (mkToken S bs) =
      match c.fromSlice bs with
      | none => .error .DeserializationError
      | some p => .ok p := by
  unfold decode_token
  simp only [splitOnDot_mkToken S hbytes, b64DecodeF_b64EncodeF bs hbytes]

/-! ### Claim theorems -/

/-- C1: for every serializable payload `P` (codec hypotheses) whose
expiration is strictly in the future and every secret `S`, creating a token
succeeds and verifying it with the same secret succeeds and returns `P`. -/
theorem claim_c1_authenticity {T : Type} (c : Codec T) (expf : T → Int)
    (P : T) (S : List Char) (bs : List Nat) (now : Int)
    (hs : c.toVec P = some bs) (hr : c.fromSlice bs = some P)
    (hfuture : now < expf P) :
    create_token c P S = .ok (mkToken S bs) ∧
    verify_token c expf S (mkToken S bs) now = .ok P := by
  refine ⟨create_token_eq c P S hs, ?_⟩
  rw [verify_token_mkToken c expf S now (c.toVec_bytes P bs hs)]
  simp only [hr]
  rw [if_neg (by omega)]

/-- Witness for C1 at the worked example of the spec. -/
theorem claim_c1_authenticity_witness :
    create_token demoCodec ⟨42, 200⟩ ['s', '3', 'c', 'r', '3', 't'] =
      .ok (mkToken ['s', '3', 'c', 'r', '3', 't'] [42, 200]) ∧
    verify_token demoCodec DemoClaims.exp ['s', '3', 'c', 'r', '3', 't']
      (mkToken ['s', '3', 'c', 'r', '3', 't'] [42, 200]) 100 = .ok ⟨42, 200⟩ :=
  claim_c1_authenticity demoCodec DemoClaims.exp ⟨42, 200⟩
    ['s', '3', 'c', 'r', '3', 't'] [42, 200] 100
    (by decide) (by decide) (by decide)

/-- C2: for every serializable payload `P` and every secret `S`,
unauthenticated decoding of the created token succeeds, with no secret and
no verification, and returns `P`. -/
theorem claim_c2_decode_roundtrip {T : Type} (c : Codec T)
    (P : T) (S : List Char) (bs : List Nat)
    (hs : c.toVec P = some bs) (hr : c.fromSlice bs = some P) :
    create_token c P S = .ok (mkToken S bs) ∧
    decode_token c (mkToken S bs) = .ok P := by
  refine ⟨create_token_eq c P S hs, ?_⟩
  rw [decode_token_mkToken c S (c.toVec_bytes P bs hs)]
  simp only [hr]

/-- Witness for C2. -/
theorem claim_c2_decode_roundtrip_witness :
    create_token demoCodec ⟨7, 3⟩ ['k'] = .ok (mkToken ['k'] [7, 3]) ∧
    decode_token demoCodec (mkToken ['k'] [7, 3]) = .ok ⟨7, 3⟩ :=
  claim_c2_decode_roundtrip demoCodec ⟨7, 3⟩ ['k'] [7, 3] (by decide) (by decide)

/-- C4: on a well-formed token, verification fails with the expired error
exactly when the expiration timestamp is strictly below `now`; at
`expf P = now` or later the token is accepted. -/
theorem claim_c4_expiration_boundary {T : Type} (c : Codec T) (expf : T → Int)
    (P : T) (S : List Char) (bs : List Nat) (now : Int)
    (hs : c.toVec P = some bs) (hr : c.fromSlice bs = some P) :
    (verify_token c expf S (mkToken S bs) now = .error .ExpiredError ↔
      expf P < now) ∧
    (¬ expf P < now → verify_token c expf S (mkToken S bs) now = .ok P) := by
  rw [verify_token_mkToken c expf S now (c.toVec_bytes P bs hs)]
  simp only [hr]
  constructor
  · constructor
    · intro h
      by_contra hlt
      rw [if_neg hlt] at h
      exact absurd h (by simp)
    · intro h
      rw [if_pos h]
  · intro h
    rw [if_neg h]

/-- Witness for C4: expiration 200, clock at 200 (boundary, accepted) and
the two directions of the characterization. -/
theorem claim_c4_expiration_boundary_witness :
    (verify_token demoCodec DemoClaims.exp ['k'] (mkToken ['k'] [42, 200]) 200 =
        .error .ExpiredError ↔ (⟨42, 200⟩ : DemoClaims).exp < 200) ∧
    (¬ (⟨42, 200⟩ : DemoClaims).exp < 200 →
      verify_token demoCodec DemoClaims.exp ['k'] (mkToken ['k'] [42, 200]) 200 =
        .ok ⟨42, 200⟩) :=
  claim_c4_expiration_boundary demoCodec DemoClaims.exp ⟨42, 200⟩ ['k']
    [42, 200] 200 (by decide) (by decide)

/-- C5 as stated is false: the code checks only the segment count, not
non-emptiness. The two-character token made of one alphabet character and a
dot splits into two segments, the second empty; both entry points pass the
format stage and fail at base64 decoding instead. -/
theorem claim_c5_counterexample :
    splitOnDot ['A', '.'] = [['A'], []] ∧
    verify_token demoCodec DemoClaims.exp ['k'] ['A', '.'] 0 =
      .error .EncodingError ∧
    decode_token demoCodec ['A', '.'] = .error .EncodingError := by
  exact ⟨by decide, by decide, by decide⟩

/-- C5 amended: a string whose dot count differs from one (zero separators,
or two and more) fails with the format error from both entry points; empty
segments are not themselves rejected at the format stage. -/
theorem claim_c5_format_error {T : Type} (c : Codec T) (expf : T → Int)
    (secret t : List Char) (now : Int) (h : t.count '.' ≠ 1) :
    verify_token c expf secret t now = .error .FormatError ∧
    decode_token c t = .error .FormatError := by
  apply formatError_of_split
  rw [splitOnDot_length]
  omega

/-- Witness for the amended C5 on a separator-free string. -/
theorem claim_c5_format_error_witness :
    verify_token demoCodec DemoClaims.exp ['k'] ['a', 'b', 'c'] 0 =
      .error .FormatError ∧
    decode_token demoCodec ['a', 'b', 'c'] = .error .FormatError :=
  claim_c5_format_error demoCodec DemoClaims.exp ['k'] ['a', 'b', 'c'] 0
    (by decide)

/-- C6 as stated is false: two distinct secrets can drive the MAC
identically. HMAC zero-pads short keys to the block size, so the secret
"a" and the secret "a" followed by a NUL byte sign every payload the same
way, and verification under the second secret accepts a token created under
the first. -/
theorem claim_c6_counterexample :
    (['a'] : List Char) ≠ ['a', Char.ofNat 0] ∧
    create_token demoCodec ⟨42, 200⟩ ['a'] = .ok (mkToken ['a'] [42, 200]) ∧
    verify_token demoCodec DemoClaims.exp ['a', Char.ofNat 0]
      (mkToken ['a'] [42, 200]) 0 = .ok ⟨42, 200⟩ := by
  exact ⟨by decide, by decide, by decide⟩

/-- C6 amended: verification under a second secret fails with the signature
error whenever the second secret's MAC over the payload bytes differs from
the first's (which is how distinctness of secrets manifests, key-padding
collisions excepted). -/
theorem claim_c6_wrong_secret {T : Type} (c : Codec T) (expf : T → Int)
    (P : T) (S1 S2 : List Char) (bs : List Nat) (now : Int)
    (hs : c.toVec P = some bs)
    (hneq : hmacSha256 (utf8Bytes S2) bs ≠ hmacSha256 (utf8Bytes S1) bs) :
    create_token c P S1 = .ok (mkToken S1 bs) ∧
    verify_token c expf S2 (mkToken S1 bs) now = .error .SignatureError :=
  ⟨create_token_eq c P S1 hs,
   verify_token_mkToken_wrong c expf S1 S2 now (c.toVec_bytes P bs hs) hneq⟩

/-- Witness for the amended C6 with secrets "a" and "b". -/
theorem claim_c6_wrong_secret_witness :
    create_token demoCodec ⟨42, 200⟩ ['a'] = .ok (mkToken ['a'] [42, 200]) ∧
    verify_token demoCodec DemoClaims.exp ['b'] (mkToken ['a'] [42, 200]) 0 =
      .error .SignatureError :=
  claim_c6_wrong_secret demoCodec DemoClaims.exp ⟨42, 200⟩ ['a'] ['b']
    [42, 200] 0 (by decide) (by decide)

/-- C7: the created token is exactly the base64url encoding of the raw
serialized payload bytes, a dot, and the base64url encoding of the
HMAC-SHA256 of those raw bytes keyed by the secret's bytes; that digest is
32 bytes long before encoding and is computed over the bytes, never over
the encoded text. -/
theorem claim_c7_signature_shape {T : Type} (c : Codec T) (P : T)
    (S : List Char) (bs : List Nat) (hs : c.toVec P = some bs) :
    create_token c P S =
      .ok (b64EncodeF bs ++ '.' :: b64EncodeF (hmacSha256 (utf8Bytes S) bs)) ∧
    sign_payload S bs = .ok (hmacSha256 (utf8Bytes S) bs) ∧
    (hmacSha256 (utf8Bytes S) bs).length = 32 :=
  ⟨create_token_eq c P S hs, sign_payload_eq S bs, hmac_length _ _⟩

/-- Witness for C7. -/
theorem claim_c7_signature_shape_witness :
    create_token demoCodec ⟨42, 200⟩ ['k'] =
      .ok (b64EncodeF [42, 200] ++ '.' ::
        b64EncodeF (hmacSha256 (utf8Bytes ['k']) [42, 200])) ∧
    sign_payload ['k'] [42, 200] =
      .ok (hmacSha256 (utf8Bytes ['k']) [42, 200]) ∧
    (hmacSha256 (utf8Bytes ['k']) [42, 200]).length = 32 :=
  claim_c7_signature_shape demoCodec ⟨42, 200⟩ ['k'] [42, 200] (by decide)

/-- C9: building the MAC never fails on the key, so the key-error branch of
`sign_payload` is unreachable, and `create_token` is fully characterized:
it fails only when serialization fails, with the serialization error. -/
theorem claim_c9_sign_never_fails {T : Type} (c : Codec T) (P : T)
    (S : List Char) (pb : List Nat) :
    sign_payload S pb = .ok (hmacSha256 (utf8Bytes S) pb) ∧
    create_token c P S =
      (match c.toVec P with
       | none => Except.error Err.SerializationError
       | some bs => Except.ok (mkToken S bs)) := by
  refine ⟨sign_payload_eq S pb, ?_⟩
  cases h : c.toVec P with
  | none =>
    unfold create_token
    simp only [h]
  | some bs =>
    exact create_token_eq c P S h

/-- C10 as stated is false: the second segment is unread only as long as it
introduces no extra separator. With a dot inside the second segment the
split has three parts and the call fails with the format error even though
the first segment decodes and deserializes. -/
theorem claim_c10_counterexample :
    b64DecodeF ['K', 's', 'g'] = some [42, 200] ∧
    demoCodec.fromSlice [42, 200] = some ⟨42, 200⟩ ∧
    (['a', '.', 'b'] : List Char) ≠ [] ∧
    decode_token demoCodec (['K', 's', 'g'] ++ '.' :: ['a', '.', 'b']) =
      .error .FormatError := by
  exact ⟨by decide, by decide, by decide, by decide⟩

/-- C10 amended: `decode_token` never reads the second segment beyond the
split. For every non-empty, dot-free second segment — valid base64 or not,
correct signature or not — decoding `s1 ++ "." ++ s2` succeeds whenever the
first segment decodes to bytes the codec deserializes. -/
theorem claim_c10_ignores_signature {T : Type} (c : Codec T)
    (s1 s2 : List Char) (bs : List Nat) (P : T)
    (h1 : b64DecodeF s1 = some bs) (h2 : c.fromSlice bs = some P)
    (_hne : s2 ≠ []) (hdot : '.' ∉ s2) :
    decode_token c (s1 ++ '.' :: s2) = .ok P := by
  unfold decode_token
  simp only [splitOnDot_append s2 (dot_not_mem_of_decode h1),
    splitOnDot_of_not_mem hdot, h1, h2]

/-- Witness for the amended C10: the second segment "x" is not valid
base64 of a signature, yet decoding succeeds. -/
theorem claim_c10_ignores_signature_witness :
    decode_token demoCodec (['K', 's', 'g'] ++ '.' :: ['x']) =
      .ok ⟨42, 200⟩ :=
  claim_c10_ignores_signature demoCodec ['K', 's', 'g'] ['x'] [42, 200]
    ⟨42, 200⟩ (by decide) (by decide) (by decide) (by decide)

/-- C3: the instrumented run agrees with `verify_token`, the executed
stages are always an initial run of split, decode, MAC check, deserialize,
expiration check (the first failing stage ends the call), and the
deserialization stage is reached only after the recomputed MAC compared
equal to the supplied one. -/
theorem claim_c3_stage_order {T : Type} (c : Codec T) (expf : T → Int)
    (secret token : List Char) (now : Int) :
    (verifyTrace c expf secret token now).2 =
      verify_token c expf secret token now ∧
    ((verifyTrace c expf secret token now).1 = [.split] ∨
     (verifyTrace c expf secret token now).1 = [.split, .decode] ∨
     (verifyTrace c expf secret token now).1 = [.split, .decode, .macCheck] ∨
     (verifyTrace c expf secret token now).1 =
       [.split, .decode, .macCheck, .deserialize] ∨
     (verifyTrace c expf secret token now).1 =
       [.split, .decode, .macCheck, .deserialize, .expCheck]) ∧
    (Stage.deserialize ∈ (verifyTrace c expf secret token now).1 →
      macPassed secret token = true) := by
  unfold verifyTrace verify_token macPassed
  repeat' split
  all_goals simp_all

/-- Witness instantiating C3 on a fully valid token, where all five stages
run. -/
theorem claim_c3_stage_order_witness :
    (verifyTrace demoCodec DemoClaims.exp ['k'] (mkToken ['k'] [42, 200]) 0).2 =
      verify_token demoCodec DemoClaims.exp ['k'] (mkToken ['k'] [42, 200]) 0 ∧
    ((verifyTrace demoCodec DemoClaims.exp ['k']
        (mkToken ['k'] [42, 200]) 0).1 = [.split] ∨
     (verifyTrace demoCodec DemoClaims.exp ['k']
        (mkToken ['k'] [42, 200]) 0).1 = [.split, .decode] ∨
     (verifyTrace demoCodec DemoClaims.exp ['k']
        (mkToken ['k'] [42, 200]) 0).1 = [.split, .decode, .macCheck] ∨
     (verifyTrace demoCodec DemoClaims.exp ['k']
        (mkToken ['k'] [42, 200]) 0).1 =
       [.split, .decode, .macCheck, .deserialize] ∨
     (verifyTrace demoCodec DemoClaims.exp ['k']
        (mkToken ['k'] [42, 200]) 0).1 =
       [.split, .decode, .macCheck, .deserialize, .expCheck]) ∧
    (Stage.deserialize ∈ (verifyTrace demoCodec DemoClaims.exp ['k']
        (mkToken ['k'] [42, 200]) 0).1 →
      macPassed ['k'] (mkToken ['k'] [42, 200]) = true) :=
  claim_c3_stage_order demoCodec DemoClaims.exp ['k'] (mkToken ['k'] [42, 200]) 0

/-! ### Helper lemmas: single-bit tampering -/

theorem flipAt_append_left {xs : List Char} (ys : List Char) {i : Nat}
    (k : Nat) (h : i < xs.length) :
    flipAt (xs ++ ys) i k = flipAt xs i k ++ ys := by
  induction xs generalizing i with
  | nil => simp at h
  | cons c rest ih =>
    cases i with
    | zero => simp [flipAt]
    | succ j =>
      simp only [List.length_cons] at h
      simp only [List.cons_append, flipAt, List.append_eq]
      rw [ih (by omega)]

theorem flipAt_append_right (xs ys : List Char) (m k : Nat) :
    flipAt (xs ++ ys) (xs.length + m) k = xs ++ flipAt ys m k := by
  induction xs with
  | nil => simp
  | cons c rest ih =>
    simp only [List.cons_append, List.length_cons]
    rw [show rest.length + 1 + m = (rest.length + m) + 1 by omega]
    simp only [flipAt]
    rw [ih]

theorem flipAt_eq_set {l : List Char} {i : Nat} (k : Nat) (h : i < l.length) :
    flipAt l i k = l.take i ++ flipBit (l.get ⟨i, h⟩) k :: l.drop (i + 1) := by
  induction l generalizing i with
  | nil => simp at h
  | cons c rest ih =>
    cases i with
    | zero => simp [flipAt]
    | succ j =>
      simp only [List.length_cons] at h
      simp only [flipAt, List.take_succ_cons, List.drop_succ_cons,
        List.get_cons_succ]
      rw [ih (by omega)]
      simp

theorem take_getElem_drop {l : List Char} {i : Nat} (h : i < l.length) :
    l.take i ++ l.get ⟨i, h⟩ :: l.drop (i + 1) = l := by
  rw [show l.get ⟨i, h⟩ :: l.drop (i + 1) = l.drop i from
    (List.drop_eq_getElem_cons h).symm]
  exact List.take_append_drop i l

theorem flipAt_ne {l : List Char} {i k : Nat} (hi : i < l.length)
    (hascii : (l.get ⟨i, hi⟩).toNat < 256) (hk : k < 8) : flipAt l i k ≠ l := by
  intro h
  have h0 : l.take i ++ flipBit (l.get ⟨i, hi⟩) k :: l.drop (i + 1) =
      l.take i ++ l.get ⟨i, hi⟩ :: l.drop (i + 1) := by
    rw [← flipAt_eq_set k hi, h]
    exact (take_getElem_drop hi).symm
  have h2 := List.append_cancel_left h0
  have h3 := (List.cons.injEq _ _ _ _).mp h2
  exact absurd h3.1 (flipBit_ne hascii hk)

/-- C8 as stated is false: a bit flip inside a segment can turn an alphabet
character into a dot. The payload bytes 159, 200 encode to a segment whose
first character is "n"; flipping its bit 6 yields ".", the split then has
three parts, and verification fails with the format error, which is neither
the encoding nor the signature error (success still never occurs). -/
theorem claim_c8_counterexample :
    create_token demoCodec ⟨159, 200⟩ ['k'] = .ok (mkToken ['k'] [159, 200]) ∧
    0 < (b64EncodeF [159, 200]).length ∧
    verify_token demoCodec DemoClaims.exp ['k']
      (flipAt (mkToken ['k'] [159, 200]) 0 6) 0 = .error .FormatError ∧
    Err.FormatError ≠ Err.EncodingError ∧
    Err.FormatError ≠ Err.SignatureError := by
  exact ⟨by decide, by decide, by decide, by decide, by decide⟩

/-- C8 amended: flipping any single bit of either segment of a created
token (any position other than the separator) makes verification with the
same secret fail with the format, encoding or signature error — never
succeed — provided the flip does not produce an HMAC collision on the
payload side (`noCollB`, trivially true for flips in the signature
segment and for flips that break base64 decoding). -/
theorem claim_c8_tamper {T : Type} (c : Codec T) (expf : T → Int) (P : T)
    (S : List Char) (bs : List Nat) (i k : Nat) (now : Int)
    (hs : c.toVec P = some bs) (hk : k < 8)
    (hilen : i < (mkToken S bs).length)
    (hidot : i ≠ (b64EncodeF bs).length)
    (hcol : noCollB S bs (flipAt (mkToken S bs) i k) = true) :
    create_token c P S = .ok (mkToken S bs) ∧
    (verify_token c expf S (flipAt (mkToken S bs) i k) now =
        .error .FormatError ∨
     verify_token c expf S (flipAt (mkToken S bs) i k) now =
        .error .EncodingError ∨
     verify_token c expf S (flipAt (mkToken S bs) i k) now =
        .error .SignatureError) := by
  refine ⟨create_token_eq c P S hs, ?_⟩
  have hbytes := c.toVec_bytes P bs hs
  have hsigbytes := hmac_mem_lt (utf8Bytes S) bs
  set s1 := b64EncodeF bs with hs1def
  set sig := hmacSha256 (utf8Bytes S) bs with hsigdef
  set s2 := b64EncodeF sig with hs2def
  have hdot1 : '.' ∉ s1 := dot_not_mem_b64EncodeF hbytes
  have hdot2 : '.' ∉ s2 := dot_not_mem_b64EncodeF hsigbytes
  have hdec1 : b64DecodeF s1 = some bs := b64DecodeF_b64EncodeF bs hbytes
  have hdec2 : b64DecodeF s2 = some sig := b64DecodeF_b64EncodeF sig hsigbytes
  have hmk : mkToken S bs = s1 ++ '.' :: s2 := rfl
  rw [hmk] at hilen hcol ⊢
  simp only [List.length_append, List.length_cons] at hilen
  by_cases hcase : i < s1.length
  · -- the flip lands in the payload segment
    rw [flipAt_append_left _ k hcase] at hcol ⊢
    have hc0lt : (s1.get ⟨i, hcase⟩).toNat < 256 :=
      toNat_lt_of_mem_b64EncodeF hbytes (List.get_mem s1 i hcase)
    have hset : flipAt s1 i k =
        s1.take i ++ flipBit (s1.get ⟨i, hcase⟩) k :: s1.drop (i + 1) :=
      flipAt_eq_set k hcase
    have hne : flipAt s1 i k ≠ s1 := flipAt_ne hcase hc0lt hk
    have hdtake : '.' ∉ s1.take i :=
      fun hm => hdot1 (List.mem_of_mem_take hm)
    have hddrop : '.' ∉ s1.drop (i + 1) :=
      fun hm => hdot1 (List.mem_of_mem_drop hm)
    by_cases hcdot : flipBit (s1.get ⟨i, hcase⟩) k = '.'
    · -- the flip produced a dot: three segments, format error
      left
      have hlen : (splitOnDot (flipAt s1 i k ++ '.' :: s2)).length ≠ 2 := by
        rw [hset, hcdot, List.append_assoc, List.cons_append,
          splitOnDot_append _ hdtake, splitOnDot_append _ hddrop]
        have hpos : 0 < (splitOnDot s2).length :=
          List.length_pos.mpr (splitOnDot_ne_nil s2)
        simp only [List.length_cons]
        omega
      exact (formatError_of_split c expf S _ now hlen).1
    · -- the flipped character is not a dot: two segments survive
      have hdots1f : '.' ∉ flipAt s1 i k := by
        rw [hset]
        intro hm
        rcases List.mem_append.mp hm with hm | hm
        · exact hdtake hm
        · rcases List.mem_cons.mp hm with hm | hm
          · exact hcdot hm.symm
          · exact hddrop hm
      have hsplit : splitOnDot (flipAt s1 i k ++ '.' :: s2) =
          [flipAt s1 i k, s2] := by
        rw [splitOnDot_append _ hdots1f, splitOnDot_of_not_mem hdot2]
      cases hd : b64DecodeF (flipAt s1 i k) with
      | none =>
        right; left
        unfold verify_token
        simp only [hsplit, hd]
      | some bs2 =>
        have hbs2ne : bs2 ≠ bs := by
          intro hbe
          subst hbe
          exact hne (b64DecodeF_inj hd hdec1)
        have hcol2 : bs2 = bs ∨
            hmacSha256 (utf8Bytes S) bs2 ≠ hmacSha256 (utf8Bytes S) bs := by
          unfold noCollB at hcol
          simp only [hsplit, hd, decide_eq_true_eq] at hcol
          exact hcol
        have hmneq := hcol2.resolve_left hbs2ne
        right; right
        unfold verify_token
        simp only [hsplit, hd, hdec2, sign_payload_eq]
        rw [if_neg (fun he => hmneq (he.symm.trans hsigdef))]
  · -- the flip lands in the signature segment
    have hgt : s1.length < i := by omega
    have hm2 : i = s1.length + (i - s1.length) := by omega
    obtain ⟨j, hj⟩ : ∃ j, i - s1.length = j + 1 :=
      ⟨i - s1.length - 1, by omega⟩
    have hjlt : j < s2.length := by omega
    rw [hm2, hj, flipAt_append_right] at hcol ⊢
    simp only [flipAt] at hcol ⊢
    have hc0lt : (s2.get ⟨j, hjlt⟩).toNat < 256 :=
      toNat_lt_of_mem_b64EncodeF hsigbytes (List.get_mem s2 j hjlt)
    have hset : flipAt s2 j k =
        s2.take j ++ flipBit (s2.get ⟨j, hjlt⟩) k :: s2.drop (j + 1) :=
      flipAt_eq_set k hjlt
    have hne : flipAt s2 j k ≠ s2 := flipAt_ne hjlt hc0lt hk
    have hdtake : '.' ∉ s2.take j :=
      fun hm => hdot2 (List.mem_of_mem_take hm)
    have hddrop : '.' ∉ s2.drop (j + 1) :=
      fun hm => hdot2 (List.mem_of_mem_drop hm)
    by_cases hcdot : flipBit (s2.get ⟨j, hjlt⟩) k = '.'
    · left
      have hlen : (splitOnDot (s1 ++ '.' :: flipAt s2 j k)).length ≠ 2 := by
        rw [hset, hcdot, splitOnDot_append _ hdot1,
          splitOnDot_append _ hdtake]
        have hpos : 0 < (splitOnDot (s2.drop (j + 1))).length :=
          List.length_pos.mpr (splitOnDot_ne_nil _)
        simp only [List.length_cons]
        omega
      exact (formatError_of_split c expf S _ now hlen).1
    · have hdots2f : '.' ∉ flipAt s2 j k := by
        rw [hset]
        intro hm
        rcases List.mem_append.mp hm with hm | hm
        · exact hdtake hm
        · rcases List.mem_cons.mp hm with hm | hm
          · exact hcdot hm.symm
          · exact hddrop hm
      have hsplit : splitOnDot (s1 ++ '.' :: flipAt s2 j k) =
          [s1, flipAt s2 j k] := by
        rw [splitOnDot_append _ hdot1, splitOnDot_of_not_mem hdots2f]
      cases hd : b64DecodeF (flipAt s2 j k) with
      | none =>
        right; left
        unfold verify_token
        simp only [hsplit, hdec1, hd]
      | some sg2 =>
        have hsg2ne : sg2 ≠ sig := by
          intro hbe
          subst hbe
          exact hne (b64DecodeF_inj hd hdec2)
        right; right
        unfold verify_token
        simp only [hsplit, hdec1, hd, sign_payload_eq]
        rw [if_neg (fun he => hsg2ne (he.trans hsigdef.symm))]

/-- Witness for the amended C8: flipping the top bit of the first character
makes it leave the base64 alphabet and verification reports the encoding
error. -/
theorem claim_c8_tamper_witness :
    create_token demoCodec ⟨42, 200⟩ ['k'] = .ok (mkToken ['k'] [42, 200]) ∧
    (verify_token demoCodec DemoClaims.exp ['k']
        (flipAt (mkToken ['k'] [42, 200]) 0 7) 0 = .error .FormatError ∨
     verify_token demoCodec DemoClaims.exp ['k']
        (flipAt (mkToken ['k'] [42, 200]) 0 7) 0 = .error .EncodingError ∨
     verify_token demoCodec DemoClaims.exp ['k']
        (flipAt (mkToken ['k'] [42, 200]) 0 7) 0 = .error .SignatureError) :=
  claim_c8_tamper demoCodec DemoClaims.exp ⟨42, 200⟩ ['k'] [42, 200] 0 7 0
    (by decide) (by decide) (by decide) (by decide) (by decide)
